import Mathlib

/-!
Shallow embedding of the indentation-offset resolution engine of the `indent`
rule (file `src/Eslint/Eslint-95/buggy/linter.js`): the `BinarySearchTree`
wrapper, `TokenInfo`, and `OffsetStorage` classes, together with
`validateTokenIndent` and the per-token reporting decision of the
`Program:exit` pass.

Modelling conventions:
* JS numbers for positions, keys and sizes are `Nat` (all relevant values are
  nonnegative integers); offsets are `Int`; resolved indentation values are
  `Rat`, since `getDesiredIndent` divides (`length / indentSize`).
* The balanced search tree is modelled as an association list sorted by
  strictly increasing key, which is the abstraction the JS wrapper maintains.
* `WeakMap` / `WeakSet` keyed by token identity are association lists keyed by
  a token id (tokens are immutable and identity-stable in the source).
* `getDesiredIndent` memoizes into `_desiredIndentCache` and recurses; the
  recursion is fuel-indexed and returns `none` when the fuel runs out or when
  the JS code would crash (a lookup returning `undefined`), so a `some` result
  is a genuinely terminating run.
-/

/-- A token: immutable, with a half-open range, a start position and a stable
identity (`id`) usable as a map key.  Fields of the source token object that
the engine never reads (end position, kind, text) are omitted. -/
structure Token where
  id : Nat
  rangeStart : Nat
  rangeEnd : Nat
  startLine : Nat
  startCol : Nat
  deriving DecidableEq, Repr

/-- An offset descriptor, the values stored in the tree:
offset level, the anchor token (`from` in the source; `null` becomes `none`),
and the `force` flag. -/
structure Descriptor where
  offset : Int
  fromTok : Option Token
  force : Bool
  deriving DecidableEq, Repr

/-- Association-list lookup keyed by `Nat` (models `Map.get` / `WeakMap.get`). -/
def lookupA {α : Type} : List (Nat × α) → Nat → Option α
  | [], _ => none
  | e :: rest, k => if e.1 = k then some e.2 else lookupA rest k

/-- Association-list upsert (models `WeakMap.set`). -/
def setA {α : Type} : List (Nat × α) → Nat → α → List (Nat × α)
  | [], k, v => [(k, v)]
  | e :: rest, k, v => if e.1 = k then (k, v) :: rest else e :: setA rest k v

/-- Set insertion (models `WeakSet.add`). -/
def addSet (l : List Nat) (k : Nat) : List Nat :=
  if k ∈ l then l else k :: l

namespace BinarySearchTree

/-- The tree of the source, as the sorted association list it abstracts. -/
abbrev Tree (α : Type) := List (Nat × α)

/-- The representation invariant of the search tree: keys strictly increase. -/
def Sorted {α : Type} (t : Tree α) : Prop :=
  List.Pairwise (fun a b => a.1 < b.1) t

instance {α : Type} (t : Tree α) : Decidable (Sorted t) :=
  List.instDecidablePairwise t

/-- Source `insert(key, value)`: upsert, keeping the list sorted (the source updates
the entry in place when the key already exists). -/
def insert {α : Type} : Tree α → Nat → α → Tree α
  | [], k, v => [(k, v)]
  | e :: rest, k, v =>
    if k < e.1 then (k, v) :: e :: rest
    else if k = e.1 then (k, v) :: rest
    else e :: insert rest k v

/-- Source `findLe(key)`: the entry with the largest key less than or equal to `key`,
or `none` if no such entry exists.  On the sorted representation this walks
forward keeping the last entry whose key is small enough. -/
def findLe {α : Type} : Tree α → Nat → Option (Nat × α)
  | [], _ => none
  | e :: rest, k =>
    if e.1 ≤ k then
      match findLe rest k with
      | some r => some r
      | none => some e
    else none

/-- Source `deleteRange(start, end)`: removes every entry whose key lies in
the interval from `start` (inclusive) to `stop` (exclusive); the source exits
early when the interval has zero size. -/
def deleteRange {α : Type} (t : Tree α) (start stop : Nat) : Tree α :=
  if start = stop then t
  else t.filter fun e => decide (e.1 < start) || decide (stop ≤ e.1)

/-- The `.value` read off `findLe(key)` as the source does.  When `findLe`
returns `null` the JS code would throw; that case is unreachable whenever the
tree contains key 0, and the model returns the initial descriptor to stay
total. -/
def floorValue (t : Tree Descriptor) (p : Nat) : Descriptor :=
  match findLe t p with
  | some e => e.2
  | none => ⟨0, none, false⟩

end BinarySearchTree

/-- Token-based info related to indentation.  `text` is the raw source text
(as a character list) and `firstTokensByLineNumber` the line-number-to-token
map the source constructor builds from the token stream. -/
structure TokenInfo where
  text : List Char
  firstTokensByLineNumber : List (Nat × Token)
  deriving DecidableEq, Repr

namespace TokenInfo

/-- Source `getFirstTokenOfLine(token)`: first token on the token's start line
(`undefined`, i.e. `none`, when the line has no registered token). -/
def getFirstTokenOfLine (ti : TokenInfo) (token : Token) : Option Token :=
  lookupA ti.firstTokensByLineNumber token.startLine

/-- Source `isFirstTokenOfLine(token)`: whether the map's entry for the token's line
is the token itself. -/
def isFirstTokenOfLine (ti : TokenInfo) (token : Token) : Bool :=
  ti.getFirstTokenOfLine token = some token

/-- Source `getTokenIndent(token)`: the source text sliced from
`token.range[0] - token.loc.start.column` to `token.range[0]`, i.e. the
characters preceding the token on its line. -/
def getTokenIndent (ti : TokenInfo) (token : Token) : List Char :=
  List.take (token.rangeStart - (token.rangeStart - token.startCol))
    (List.drop (token.rangeStart - token.startCol) ti.text)

end TokenInfo

/-- The `OffsetStorage` state: the descriptor tree plus the three
identity-keyed side tables of the source constructor. -/
structure OffsetStorage where
  tokenInfo : TokenInfo
  indentSize : Nat
  tree : BinarySearchTree.Tree Descriptor
  lockedFirstTokens : List (Nat × Token)
  desiredIndentCache : List (Nat × Rat)
  ignoredTokens : List Nat
  deriving DecidableEq, Repr

namespace OffsetStorage

/-- The constructor: an empty storage whose tree holds the single breakpoint
at key 0 with descriptor offset 0, anchor `null`, force `false`. -/
def mkStorage (tokenInfo : TokenInfo) (indentSize : Nat) : OffsetStorage :=
  { tokenInfo := tokenInfo
    indentSize := indentSize
    tree := BinarySearchTree.insert [] 0 ⟨0, none, false⟩
    lockedFirstTokens := []
    desiredIndentCache := []
    ignoredTokens := [] }

/-- Source `_getOffsetDescriptor(token)`: `findLe(token.range[0]).value`.  The
`none` branch is unreachable whenever the tree contains key 0 (the JS code
would throw on `null.value`); it returns the initial descriptor so that the
function stays total. -/
def getOffsetDescriptor (s : OffsetStorage) (token : Token) : Descriptor :=
  BinarySearchTree.floorValue s.tree token.rangeStart

/-- Source `setDesiredOffsets(range, fromToken, offset, force)`, exactly as in the
source: capture the descriptor active at `range[1]`, delete the breakpoints in
the open interior, insert the new descriptor at `range[0]`, reinstate the
anchor's own descriptor when the anchor lies fully inside the range, and
reinstate the captured descriptor at `range[1]`. -/
def setDesiredOffsets (s : OffsetStorage) (range : Nat × Nat)
    (fromToken : Option Token) (offset : Int) (force : Bool) : OffsetStorage :=
  let descriptorToInsert : Descriptor := ⟨offset, fromToken, force⟩
  let descriptorAfterRange : Descriptor := BinarySearchTree.floorValue s.tree range.2
  let t1 := BinarySearchTree.deleteRange s.tree (range.1 + 1) range.2
  let t2 := BinarySearchTree.insert t1 range.1 descriptorToInsert
  let t3 :=
    match fromToken with
    | some f =>
      if range.1 ≤ f.rangeStart ∧ f.rangeEnd ≤ range.2 then
        BinarySearchTree.insert
          (BinarySearchTree.insert t2 f.rangeStart (s.getOffsetDescriptor f))
          f.rangeEnd descriptorToInsert
      else t2
    | none => t2
  { s with tree := BinarySearchTree.insert t3 range.2 descriptorAfterRange }

/-- Source `matchIndentOf(baseToken, offsetToken)`:
`setDesiredOffsets(offsetToken.range, baseToken, 0)` (the omitted `force`
argument is `undefined`, i.e. falsy). -/
def matchIndentOf (s : OffsetStorage) (baseToken offsetToken : Token) :
    OffsetStorage :=
  s.setDesiredOffsets (offsetToken.rangeStart, offsetToken.rangeEnd)
    (some baseToken) 0 false

/-- Source `matchOffsetOf(baseToken, offsetToken)`: records the pair in
`_lockedFirstTokens`. -/
def matchOffsetOf (s : OffsetStorage) (baseToken offsetToken : Token) :
    OffsetStorage :=
  { s with lockedFirstTokens := setA s.lockedFirstTokens offsetToken.id baseToken }

/-- Source `ignoreToken(token)`: adds the token to `_ignoredTokens` when it is the
first token of its line. -/
def ignoreToken (s : OffsetStorage) (token : Token) : OffsetStorage :=
  if s.tokenInfo.isFirstTokenOfLine token then
    { s with ignoredTokens := addSet s.ignoredTokens token.id }
  else s

/-- Write-through of `_desiredIndentCache.set(token, value)`. -/
def cacheSet (s : OffsetStorage) (tokenId : Nat) (v : Rat) : OffsetStorage :=
  { s with desiredIndentCache := setA s.desiredIndentCache tokenId v }

/-- The offset contribution computed inside `getDesiredIndent`: zero when the
anchor exists, is on the token's start line and the descriptor is not forced
(the same-line collapse), the descriptor's offset otherwise. -/
def collapsedOffset (d : Descriptor) (token : Token) : Int :=
  match d.fromTok with
  | some f => if f.startLine = token.startLine ∧ d.force = false then 0 else d.offset
  | none => d.offset

/-- Source `getDesiredIndent(token)`, fuel-indexed.  Returns the resolved value and
the state with the updated memo cache, or `none` when the fuel is exhausted
(the JS recursion would still be running) or when the JS code would crash on
an `undefined` line lookup in the locked branch.  The four branches are the
source's: memo hit, ignored token, locked first token, offset descriptor. -/
def getDesiredIndent : Nat → OffsetStorage → Token → Option (Rat × OffsetStorage)
  | 0, _, _ => none
  | fuel + 1, s, token =>
    match lookupA s.desiredIndentCache token.id with
    | some v => some (v, s)
    | none =>
      if token.id ∈ s.ignoredTokens then
        let v : Rat := ((s.tokenInfo.getTokenIndent token).length : Rat) / (s.indentSize : Rat)
        some (v, s.cacheSet token.id v)
      else
        match lookupA s.lockedFirstTokens token.id with
        | some firstToken =>
          match s.tokenInfo.getFirstTokenOfLine firstToken with
          | none => none
          | some lineFirst =>
            match getDesiredIndent fuel s lineFirst with
            | none => none
            | some (v, s') =>
              let val : Rat :=
                v + ((firstToken.startCol : Rat) - (lineFirst.startCol : Rat)) / (s.indentSize : Rat)
              some (val, s'.cacheSet token.id val)
        | none =>
          let offsetInfo := s.getOffsetDescriptor token
          let offset : Int := collapsedOffset offsetInfo token
          match offsetInfo.fromTok with
          | some f =>
            match getDesiredIndent fuel s f with
            | none => none
            | some (v, s') =>
              let val : Rat := (offset : Rat) + v
              some (val, s'.cacheSet token.id val)
          | none => some ((offset : Rat), s.cacheSet token.id (offset : Rat))

end OffsetStorage

/-- One call of the declaration phase, as issued by the rule's node
listeners. -/
inductive Call
  | setOffsets (range : Nat × Nat) (fromToken : Option Token) (offset : Int) (force : Bool)
  | matchIndent (baseToken offsetToken : Token)
  | matchOffset (baseToken offsetToken : Token)
  | ignore (token : Token)

/-- Applies one declaration call to the storage. -/
def applyCall (s : OffsetStorage) : Call → OffsetStorage
  | Call.setOffsets range fromToken offset force =>
    s.setDesiredOffsets range fromToken offset force
  | Call.matchIndent baseToken offsetToken => s.matchIndentOf baseToken offsetToken
  | Call.matchOffset baseToken offsetToken => s.matchOffsetOf baseToken offsetToken
  | Call.ignore token => s.ignoreToken token

/-- Applies a sequence of declaration calls in order. -/
def applyCalls (s : OffsetStorage) (cs : List Call) : OffsetStorage :=
  cs.foldl applyCall s

/-- A well-formed token occupies a nonempty half-open range. -/
def Token.WF (t : Token) : Bool :=
  t.rangeStart < t.rangeEnd

/-- A valid declaration call: its range satisfies `start ≤ end` and the
tokens it mentions are well formed. -/
def Call.valid : Call → Bool
  | Call.setOffsets range fromToken _ _ =>
    decide (range.1 ≤ range.2) &&
      (match fromToken with
       | some f => f.WF
       | none => true)
  | Call.matchIndent baseToken offsetToken => baseToken.WF && offsetToken.WF
  | Call.matchOffset _ _ => true
  | Call.ignore _ => true

/-- Whether a call leaves the descriptor lookup at position `p` untouched:
declaration calls must not cover `p` with their range. -/
def Call.avoidsPos : Call → Nat → Bool
  | Call.setOffsets range _ _ _, p => !(decide (range.1 ≤ p) && decide (p < range.2))
  | Call.matchIndent _ offsetToken, p =>
    !(decide (offsetToken.rangeStart ≤ p) && decide (p < offsetToken.rangeEnd))
  | Call.matchOffset _ _, _ => true
  | Call.ignore _, _ => true

/-- The chain of anchor (`from`) tokens from a token: `fromChain s n t` is the
token reached after `n` steps of taking the governing descriptor's anchor, or
`none` when the chain has already ended. -/
def fromChain (s : OffsetStorage) : Nat → Token → Option Token
  | 0, t => some t
  | n + 1, t =>
    match (s.getOffsetDescriptor t).fromTok with
    | some u => fromChain s n u
    | none => none

/-- The store invariant: the tree is sorted and a breakpoint at key 0 is
present. -/
def StoreWF (s : OffsetStorage) : Prop :=
  BinarySearchTree.Sorted s.tree ∧ ∃ d, (0, d) ∈ s.tree

/-! Concrete tokens, token infos and stores used to instantiate the theorems
below on explicit inputs. -/

/-- An empty token info: no source text, no line map. -/
def exTi : TokenInfo := ⟨[], []⟩

/-- A fresh storage over `exTi` with indent size 4. -/
def exS0 : OffsetStorage := OffsetStorage.mkStorage exTi 4

/-- A token that starts inside the range `[0, 10)` but ends outside it. -/
def exA : Token := ⟨0, 5, 20, 1, 5⟩

/-- Store `exS0` after declaring offsets over `[0, 10)` anchored at `exA`. -/
def exC2after : OffsetStorage := exS0.setDesiredOffsets (0, 10) (some exA) 1 false

/-- A small token used as an inner anchor. -/
def exF : Token := ⟨1, 2, 3, 2, 2⟩

/-- A token fully contained in the range `[0, 9)` declared below. -/
def exA2 : Token := ⟨2, 5, 6, 3, 5⟩

/-- Store `exS0` after anchoring `[5, 9)` at `exF`. -/
def exC2sa : OffsetStorage := exS0.setDesiredOffsets (5, 9) (some exF) 1 false

/-- Store `exC2sa` after anchoring `[0, 9)` at the fully contained `exA2`. -/
def exC2sb : OffsetStorage := exC2sa.setDesiredOffsets (0, 9) (some exA2) 1 false

/-- An anchor token outside `[0, 10)`, on line 1. -/
def exAnchor : Token := ⟨3, 20, 25, 1, 20⟩

/-- A dependent token inside `[0, 10)`, also on line 1. -/
def exT : Token := ⟨4, 5, 6, 1, 5⟩

/-- A token at the very start of the file. -/
def exT9 : Token := ⟨9, 0, 1, 1, 0⟩

/-- A token on line 1 serving as the base of an alignment lock. -/
def exBase9 : Token := ⟨10, 3, 4, 1, 3⟩

/-- Token info whose line-1 first token is `exT9`. -/
def exTi9 : TokenInfo := ⟨[], [(1, exT9)]⟩

/-- Storage over `exTi9` in which `exT9` is alignment-locked to `exBase9`;
since `exBase9`'s line-first token is `exT9` itself, resolving `exT9`
recurses onto itself through the locked branch. -/
def exS9 : OffsetStorage := (OffsetStorage.mkStorage exTi9 4).matchOffsetOf exBase9 exT9

namespace BinarySearchTree

theorem mem_of_mem_insert {α : Type} {t : Tree α} {k : Nat} {v : α} {e : Nat × α}
    (h : e ∈ insert t k v) : e = (k, v) ∨ e ∈ t := by
  induction t with
  | nil => simpa [insert] using h
  | cons a rest ih =>
    by_cases h1 : k < a.1
    · simp only [insert, if_pos h1, List.mem_cons] at h
      rcases h with h | h | h
      · exact Or.inl h
      · exact Or.inr (List.mem_cons.mpr (Or.inl h))
      · exact Or.inr (List.mem_cons.mpr (Or.inr h))
    · by_cases h2 : k = a.1
      · simp only [insert, if_neg h1, if_pos h2, List.mem_cons] at h
        rcases h with h | h
        · exact Or.inl h
        · exact Or.inr (List.mem_cons.mpr (Or.inr h))
      · simp only [insert, if_neg h1, if_neg h2, List.mem_cons] at h
        rcases h with h | h
        · exact Or.inr (List.mem_cons.mpr (Or.inl h))
        · rcases ih h with h | h
          · exact Or.inl h
          · exact Or.inr (List.mem_cons.mpr (Or.inr h))

theorem sorted_insert {α : Type} {t : Tree α} (h : Sorted t) (k : Nat) (v : α) :
    Sorted (insert t k v) := by
  induction t with
  | nil => simp [insert, Sorted]
  | cons a rest ih =>
    rw [Sorted, List.pairwise_cons] at h
    obtain ⟨hhead, hrest⟩ := h
    by_cases h1 : k < a.1
    · simp only [insert, if_pos h1]
      rw [Sorted, List.pairwise_cons]
      refine ⟨?_, List.pairwise_cons.mpr ⟨hhead, hrest⟩⟩
      intro b hb
      rcases List.mem_cons.mp hb with rfl | hb
      · exact h1
      · exact lt_trans h1 (hhead b hb)
    · by_cases h2 : k = a.1
      · simp only [insert, if_neg h1, if_pos h2]
        rw [Sorted, List.pairwise_cons]
        exact ⟨fun b hb => h2 ▸ hhead b hb, hrest⟩
      · simp only [insert, if_neg h1, if_neg h2]
        rw [Sorted, List.pairwise_cons]
        refine ⟨?_, ih hrest⟩
        intro b hb
        rcases mem_of_mem_insert hb with rfl | hb
        · omega
        · exact hhead b hb

theorem mem_insert_iff {α : Type} {t : Tree α} (h : Sorted t) {k : Nat} {v : α} {e : Nat × α} :
    e ∈ insert t k v ↔ e = (k, v) ∨ (e ∈ t ∧ e.1 ≠ k) := by
  induction t with
  | nil => simp [insert]
  | cons a rest ih =>
    rw [Sorted, List.pairwise_cons] at h
    obtain ⟨hhead, hrest⟩ := h
    by_cases h1 : k < a.1
    · simp only [insert, if_pos h1, List.mem_cons]
      constructor
      · rintro (rfl | rfl | hb)
        · exact Or.inl rfl
        · exact Or.inr ⟨Or.inl rfl, by omega⟩
        · exact Or.inr ⟨Or.inr hb, by have := hhead e hb; omega⟩
      · rintro (rfl | ⟨(rfl | hb), hne⟩)
        · exact Or.inl rfl
        · exact Or.inr (Or.inl rfl)
        · exact Or.inr (Or.inr hb)
    · by_cases h2 : k = a.1
      · simp only [insert, if_neg h1, if_pos h2, List.mem_cons]
        constructor
        · rintro (rfl | hb)
          · exact Or.inl rfl
          · exact Or.inr ⟨Or.inr hb, by have := hhead e hb; omega⟩
        · rintro (rfl | ⟨(rfl | hb), hne⟩)
          · exact Or.inl rfl
          · exact absurd h2.symm hne
          · exact Or.inr hb
      · simp only [insert, if_neg h1, if_neg h2, List.mem_cons, ih hrest]
        constructor
        · rintro (rfl | rfl | ⟨hb, hne⟩)
          · exact Or.inr ⟨Or.inl rfl, by omega⟩
          · exact Or.inl rfl
          · exact Or.inr ⟨Or.inr hb, hne⟩
        · rintro (rfl | ⟨(rfl | hb), hne⟩)
          · exact Or.inr (Or.inl rfl)
          · exact Or.inl rfl
          · exact Or.inr (Or.inr ⟨hb, hne⟩)

theorem findLe_eq_none_iff {α : Type} {t : Tree α} (h : Sorted t) {p : Nat} :
    findLe t p = none ↔ ∀ e ∈ t, p < e.1 := by
  induction t with
  | nil => simp [findLe]
  | cons a rest ih =>
    rw [Sorted, List.pairwise_cons] at h
    obtain ⟨hhead, hrest⟩ := h
    by_cases h1 : a.1 ≤ p
    · simp only [findLe, if_pos h1]
      constructor
      · intro hc
        cases hfr : findLe rest p <;> simp [hfr] at hc
      · intro hc
        exact absurd (hc a (List.mem_cons_self a rest)) (by omega)
    · simp only [findLe, if_neg h1]
      constructor
      · intro _ e he
        rcases List.mem_cons.mp he with rfl | he
        · omega
        · have := hhead e he; omega
      · intro _; trivial

theorem findLe_eq_some_iff' {α : Type} {t : Tree α} (h : Sorted t) {p : Nat} :
    ∀ e : Nat × α, findLe t p = some e ↔ e ∈ t ∧ e.1 ≤ p ∧ ∀ a ∈ t, a.1 ≤ p → a.1 ≤ e.1 := by
  induction t with
  | nil => simp [findLe]
  | cons a rest ih =>
    intro e
    rw [Sorted, List.pairwise_cons] at h
    obtain ⟨hhead, hrest⟩ := h
    by_cases h1 : a.1 ≤ p
    · simp only [findLe, if_pos h1]
      cases hfr : findLe rest p with
      | some r =>
        have hr := (ih hrest r).mp hfr
        simp only [Option.some.injEq]
        constructor
        · rintro rfl
          refine ⟨List.mem_cons_of_mem a hr.1, hr.2.1, ?_⟩
          intro b hb hbp
          rcases List.mem_cons.mp hb with rfl | hb
          · have := hhead r hr.1; omega
          · exact hr.2.2 b hb hbp
        · rintro ⟨he, hep, hmax⟩
          rcases List.mem_cons.mp he with rfl | he
          · have h3 := hhead r hr.1
            have h4 := hmax r (List.mem_cons_of_mem e hr.1) hr.2.1
            omega
          · have : findLe rest p = some e := by
              refine (ih hrest e).mpr ⟨he, hep, ?_⟩
              intro b hb hbp
              exact hmax b (List.mem_cons_of_mem a hb) hbp
            rw [hfr] at this
            exact (Option.some.injEq _ _).mp this
      | none =>
        have hnone := (findLe_eq_none_iff hrest).mp hfr
        simp only [Option.some.injEq]
        constructor
        · rintro rfl
          refine ⟨List.mem_cons_self a rest, h1, ?_⟩
          intro b hb hbp
          rcases List.mem_cons.mp hb with rfl | hb
          · omega
          · have := hnone b hb; omega
        · rintro ⟨he, hep, hmax⟩
          rcases List.mem_cons.mp he with rfl | he
          · rfl
          · have := hnone e he; omega
    · simp only [findLe, if_neg h1]
      constructor
      · intro hc; cases hc
      · rintro ⟨he, hep, hmax⟩
        rcases List.mem_cons.mp he with rfl | he
        · omega
        · have := hhead e he; omega

theorem findLe_eq_some_iff {α : Type} {t : Tree α} (h : Sorted t) {p : Nat} {e : Nat × α} :
    findLe t p = some e ↔ e ∈ t ∧ e.1 ≤ p ∧ ∀ a ∈ t, a.1 ≤ p → a.1 ≤ e.1 :=
  findLe_eq_some_iff' h e

theorem findLe_mem_self {α : Type} {t : Tree α} (h : Sorted t) {k : Nat} {v : α}
    (hm : (k, v) ∈ t) : findLe t k = some (k, v) := by
  exact (findLe_eq_some_iff h).mpr ⟨hm, le_refl k, fun a _ ha => ha⟩

theorem findLe_isSome {α : Type} {t : Tree α} (h : Sorted t) {k p : Nat} {v : α}
    (hm : (k, v) ∈ t) (hkp : k ≤ p) : ∃ e, findLe t p = some e := by
  cases hf : findLe t p with
  | some e => exact ⟨e, rfl⟩
  | none =>
    have := (findLe_eq_none_iff h).mp hf (k, v) hm
    omega

theorem sorted_ext {α : Type} {t t' : Tree α} (h : Sorted t) (h' : Sorted t')
    (hm : ∀ e, e ∈ t ↔ e ∈ t') : t = t' := by
  induction t generalizing t' with
  | nil =>
    cases t' with
    | nil => rfl
    | cons a' r' => exact absurd ((hm a').mpr (List.mem_cons_self a' r')) (List.not_mem_nil a')
  | cons a r ih =>
    cases t' with
    | nil => exact absurd ((hm a).mp (List.mem_cons_self a r)) (List.not_mem_nil a)
    | cons a' r' =>
      rw [Sorted, List.pairwise_cons] at h h'
      obtain ⟨hhead, hrest⟩ := h
      obtain ⟨hhead', hrest'⟩ := h'
      have haa : a = a' := by
        have h1 := (hm a).mp (List.mem_cons_self a r)
        have h2 := (hm a').mpr (List.mem_cons_self a' r')
        rcases List.mem_cons.mp h1 with h1 | h1
        · exact h1
        · rcases List.mem_cons.mp h2 with h2 | h2
          · exact h2.symm
          · have := hhead a' h2
            have := hhead' a h1
            omega
      subst haa
      congr 1
      refine ih hrest hrest' ?_
      intro e
      constructor
      · intro he
        have h1 := (hm e).mp (List.mem_cons_of_mem a he)
        rcases List.mem_cons.mp h1 with rfl | h1
        · exact absurd (hhead e he) (by omega)
        · exact h1
      · intro he
        have h1 := (hm e).mpr (List.mem_cons_of_mem a he)
        rcases List.mem_cons.mp h1 with rfl | h1
        · exact absurd (hhead' e he) (by omega)
        · exact h1


theorem sorted_filter {α : Type} {t : Tree α} (h : Sorted t) (p : Nat × α → Bool) :
    Sorted (t.filter p) :=
  List.Pairwise.filter p h

theorem mem_deleteRange_iff {α : Type} {t : Tree α} {start stop : Nat} {e : Nat × α} :
    e ∈ deleteRange t start stop ↔ e ∈ t ∧ (e.1 < start ∨ stop ≤ e.1) := by
  unfold deleteRange
  by_cases hse : start = stop
  · subst hse
    simp only [if_pos rfl]
    constructor
    · intro he; exact ⟨he, by omega⟩
    · intro he; exact he.1
  · simp only [if_neg hse, List.mem_filter]
    constructor
    · rintro ⟨he, hc⟩
      refine ⟨he, ?_⟩
      rcases Bool.or_eq_true_iff.mp hc with hc | hc
      · exact Or.inl (of_decide_eq_true hc)
      · exact Or.inr (of_decide_eq_true hc)
    · rintro ⟨he, hc⟩
      refine ⟨he, ?_⟩
      rcases hc with hc | hc
      · exact Bool.or_eq_true_iff.mpr (Or.inl (decide_eq_true hc))
      · exact Bool.or_eq_true_iff.mpr (Or.inr (decide_eq_true hc))

theorem sorted_deleteRange {α : Type} {t : Tree α} (h : Sorted t) (start stop : Nat) :
    Sorted (deleteRange t start stop) := by
  unfold deleteRange
  by_cases hse : start = stop
  · simpa [hse] using h
  · simp only [if_neg hse]
    exact sorted_filter h _

end BinarySearchTree

namespace OffsetStorage

theorem setDesiredOffsets_tokenInfo (s : OffsetStorage) (range : Nat × Nat)
    (ft : Option Token) (off : Int) (force : Bool) :
    (s.setDesiredOffsets range ft off force).tokenInfo = s.tokenInfo := rfl

theorem setDesiredOffsets_indentSize (s : OffsetStorage) (range : Nat × Nat)
    (ft : Option Token) (off : Int) (force : Bool) :
    (s.setDesiredOffsets range ft off force).indentSize = s.indentSize := rfl

theorem setDesiredOffsets_locked (s : OffsetStorage) (range : Nat × Nat)
    (ft : Option Token) (off : Int) (force : Bool) :
    (s.setDesiredOffsets range ft off force).lockedFirstTokens = s.lockedFirstTokens := rfl

theorem setDesiredOffsets_cache (s : OffsetStorage) (range : Nat × Nat)
    (ft : Option Token) (off : Int) (force : Bool) :
    (s.setDesiredOffsets range ft off force).desiredIndentCache = s.desiredIndentCache := rfl

theorem setDesiredOffsets_ignored (s : OffsetStorage) (range : Nat × Nat)
    (ft : Option Token) (off : Int) (force : Bool) :
    (s.setDesiredOffsets range ft off force).ignoredTokens = s.ignoredTokens := rfl

theorem sorted_setDesiredOffsets (s : OffsetStorage) (range : Nat × Nat)
    (ft : Option Token) (off : Int) (force : Bool) (h : BinarySearchTree.Sorted s.tree) :
    BinarySearchTree.Sorted (s.setDesiredOffsets range ft off force).tree := by
  have h1 := BinarySearchTree.sorted_deleteRange h (range.1 + 1) range.2
  have h2 := BinarySearchTree.sorted_insert h1 range.1 (⟨off, ft, force⟩ : Descriptor)
  simp only [OffsetStorage.setDesiredOffsets]
  cases ft with
  | none => exact BinarySearchTree.sorted_insert h2 range.2 _
  | some f =>
    by_cases hin : range.1 ≤ f.rangeStart ∧ f.rangeEnd ≤ range.2
    · simp only [if_pos hin]
      exact BinarySearchTree.sorted_insert
        (BinarySearchTree.sorted_insert (BinarySearchTree.sorted_insert h2 _ _) _ _) _ _
    · simp only [if_neg hin]
      exact BinarySearchTree.sorted_insert h2 _ _

theorem mem_setTree_anchor (s : OffsetStorage) (range : Nat × Nat) (f : Token)
    (off : Int) (force : Bool) (hs : BinarySearchTree.Sorted s.tree)
    (hin : range.1 ≤ f.rangeStart ∧ f.rangeEnd ≤ range.2) (e : Nat × Descriptor) :
    e ∈ (s.setDesiredOffsets range (some f) off force).tree ↔
      e = (range.2, BinarySearchTree.floorValue s.tree range.2) ∨
      (e.1 ≠ range.2 ∧ (e = (f.rangeEnd, ⟨off, some f, force⟩) ∨
        (e.1 ≠ f.rangeEnd ∧ (e = (f.rangeStart, BinarySearchTree.floorValue s.tree f.rangeStart) ∨
          (e.1 ≠ f.rangeStart ∧ (e = (range.1, ⟨off, some f, force⟩) ∨
            (e.1 ≠ range.1 ∧ e ∈ s.tree ∧ (e.1 < range.1 + 1 ∨ range.2 ≤ e.1)))))))) := by
  have h1 := BinarySearchTree.sorted_deleteRange hs (range.1 + 1) range.2
  have h2 := BinarySearchTree.sorted_insert h1 range.1 (⟨off, some f, force⟩ : Descriptor)
  have h3 := BinarySearchTree.sorted_insert h2 f.rangeStart (s.getOffsetDescriptor f)
  have h4 := BinarySearchTree.sorted_insert h3 f.rangeEnd (⟨off, some f, force⟩ : Descriptor)
  simp only [OffsetStorage.setDesiredOffsets, if_pos hin]
  rw [BinarySearchTree.mem_insert_iff h4, BinarySearchTree.mem_insert_iff h3,
    BinarySearchTree.mem_insert_iff h2, BinarySearchTree.mem_insert_iff h1,
    BinarySearchTree.mem_deleteRange_iff]
  tauto

theorem mem_setTree_plain (s : OffsetStorage) (range : Nat × Nat)
    (off : Int) (force : Bool) (hs : BinarySearchTree.Sorted s.tree) (e : Nat × Descriptor) :
    e ∈ (s.setDesiredOffsets range none off force).tree ↔
      e = (range.2, BinarySearchTree.floorValue s.tree range.2) ∨
      (e.1 ≠ range.2 ∧ (e = (range.1, ⟨off, none, force⟩) ∨
        (e.1 ≠ range.1 ∧ e ∈ s.tree ∧ (e.1 < range.1 + 1 ∨ range.2 ≤ e.1)))) := by
  have h1 := BinarySearchTree.sorted_deleteRange hs (range.1 + 1) range.2
  have h2 := BinarySearchTree.sorted_insert h1 range.1 (⟨off, none, force⟩ : Descriptor)
  simp only [OffsetStorage.setDesiredOffsets]
  rw [BinarySearchTree.mem_insert_iff h2, BinarySearchTree.mem_insert_iff h1,
    BinarySearchTree.mem_deleteRange_iff]
  tauto

theorem mem_setTree_anchorOut (s : OffsetStorage) (range : Nat × Nat) (f : Token)
    (off : Int) (force : Bool) (hs : BinarySearchTree.Sorted s.tree)
    (hout : ¬(range.1 ≤ f.rangeStart ∧ f.rangeEnd ≤ range.2)) (e : Nat × Descriptor) :
    e ∈ (s.setDesiredOffsets range (some f) off force).tree ↔
      e = (range.2, BinarySearchTree.floorValue s.tree range.2) ∨
      (e.1 ≠ range.2 ∧ (e = (range.1, ⟨off, some f, force⟩) ∨
        (e.1 ≠ range.1 ∧ e ∈ s.tree ∧ (e.1 < range.1 + 1 ∨ range.2 ≤ e.1)))) := by
  have h1 := BinarySearchTree.sorted_deleteRange hs (range.1 + 1) range.2
  have h2 := BinarySearchTree.sorted_insert h1 range.1 (⟨off, some f, force⟩ : Descriptor)
  simp only [OffsetStorage.setDesiredOffsets, if_neg hout]
  rw [BinarySearchTree.mem_insert_iff h2, BinarySearchTree.mem_insert_iff h1,
    BinarySearchTree.mem_deleteRange_iff]
  tauto

end OffsetStorage

theorem BinarySearchTree.mem_insert_self {α : Type} (t : BinarySearchTree.Tree α)
    (k : Nat) (v : α) : (k, v) ∈ BinarySearchTree.insert t k v := by
  induction t with
  | nil => simp [BinarySearchTree.insert]
  | cons a rest ih =>
    by_cases h1 : k < a.1
    · simp [BinarySearchTree.insert, if_pos h1]
    · by_cases h2 : k = a.1
      · simp [BinarySearchTree.insert, if_neg h1, if_pos h2]
      · simp only [BinarySearchTree.insert, if_neg h1, if_neg h2, List.mem_cons]
        exact Or.inr ih

namespace OffsetStorage

theorem key0_setDesiredOffsets (s : OffsetStorage) (range : Nat × Nat)
    (ft : Option Token) (off : Int) (force : Bool)
    (hs : BinarySearchTree.Sorted s.tree) (h0 : ∃ d, (0, d) ∈ s.tree) :
    ∃ d, (0, d) ∈ (s.setDesiredOffsets range ft off force).tree := by
  obtain ⟨d0, hd0⟩ := h0
  have hstep : ∀ (t : BinarySearchTree.Tree Descriptor), BinarySearchTree.Sorted t →
      (∃ d, (0, d) ∈ t) → ∀ (k : Nat) (v : Descriptor),
      ∃ d, (0, d) ∈ BinarySearchTree.insert t k v := by
    intro t ht ⟨d, hd⟩ k v
    by_cases hk : k = 0
    · subst hk
      exact ⟨v, BinarySearchTree.mem_insert_self t 0 v⟩
    · exact ⟨d, (BinarySearchTree.mem_insert_iff ht).mpr (Or.inr ⟨hd, fun hc => hk hc.symm⟩)⟩
  have h1s := BinarySearchTree.sorted_deleteRange hs (range.1 + 1) range.2
  have h1 : ∃ d, (0, d) ∈ BinarySearchTree.deleteRange s.tree (range.1 + 1) range.2 :=
    ⟨d0, BinarySearchTree.mem_deleteRange_iff.mpr ⟨hd0, by omega⟩⟩
  have h2s := BinarySearchTree.sorted_insert h1s range.1 (⟨off, ft, force⟩ : Descriptor)
  have h2 := hstep _ h1s h1 range.1 ⟨off, ft, force⟩
  simp only [OffsetStorage.setDesiredOffsets]
  cases ft with
  | none => exact hstep _ h2s h2 range.2 _
  | some f =>
    by_cases hin : range.1 ≤ f.rangeStart ∧ f.rangeEnd ≤ range.2
    · simp only [if_pos hin]
      have h3s := BinarySearchTree.sorted_insert h2s f.rangeStart (s.getOffsetDescriptor f)
      have h3 := hstep _ h2s h2 f.rangeStart (s.getOffsetDescriptor f)
      have h4s := BinarySearchTree.sorted_insert h3s f.rangeEnd (⟨off, some f, force⟩ : Descriptor)
      have h4 := hstep _ h3s h3 f.rangeEnd ⟨off, some f, force⟩
      exact hstep _ h4s h4 range.2 _
    · simp only [if_neg hin]
      exact hstep _ h2s h2 range.2 _

theorem findLe_setDesiredOffsets_ge (s : OffsetStorage) (range : Nat × Nat)
    (ft : Option Token) (off : Int) (force : Bool)
    (hs : BinarySearchTree.Sorted s.tree) (h0 : ∃ d, (0, d) ∈ s.tree)
    (hr : range.1 ≤ range.2)
    (hft : ∀ f, ft = some f → f.rangeStart ≤ f.rangeEnd)
    (p : Nat) (hp : range.2 ≤ p) :
    (BinarySearchTree.findLe (s.setDesiredOffsets range ft off force).tree p).map Prod.snd
      = (BinarySearchTree.findLe s.tree p).map Prod.snd := by
  obtain ⟨d0, hd0⟩ := h0
  have hs' := sorted_setDesiredOffsets s range ft off force hs
  obtain ⟨E, hE⟩ := BinarySearchTree.findLe_isSome hs hd0 (Nat.zero_le p)
  have hEc := (BinarySearchTree.findLe_eq_some_iff hs).mp hE
  -- every entry of the new tree is an old entry outside the open interval, or
  -- one of the inserted breakpoints, whose keys are all at most range.2
  have fact1 : ∀ e ∈ (s.setDesiredOffsets range ft off force).tree,
      (e ∈ s.tree ∧ (e.1 < range.1 + 1 ∨ range.2 ≤ e.1)) ∨ e.1 ≤ range.2 := by
    intro e he
    cases hft' : ft with
    | none =>
      rw [hft'] at he
      rw [mem_setTree_plain s range off force hs] at he
      rcases he with rfl | ⟨_, rfl | ⟨_, he, hcond⟩⟩
      · exact Or.inr (le_refl _)
      · exact Or.inr hr
      · exact Or.inl ⟨he, hcond⟩
    | some f =>
      rw [hft'] at he
      by_cases hin : range.1 ≤ f.rangeStart ∧ f.rangeEnd ≤ range.2
      · rw [mem_setTree_anchor s range f off force hs hin] at he
        have hfr := hft f hft'
        rcases he with rfl | ⟨_, rfl | ⟨_, rfl | ⟨_, rfl | ⟨_, he, hcond⟩⟩⟩⟩
        · exact Or.inr (le_refl _)
        · exact Or.inr hin.2
        · exact Or.inr (le_trans hfr hin.2)
        · exact Or.inr hr
        · exact Or.inl ⟨he, hcond⟩
      · rw [mem_setTree_anchorOut s range f off force hs hin] at he
        rcases he with rfl | ⟨_, rfl | ⟨_, he, hcond⟩⟩
        · exact Or.inr (le_refl _)
        · exact Or.inr hr
        · exact Or.inl ⟨he, hcond⟩
  have fact2 : (range.2, BinarySearchTree.floorValue s.tree range.2)
      ∈ (s.setDesiredOffsets range ft off force).tree := by
    cases hft' : ft with
    | none => exact (mem_setTree_plain s range off force hs _).mpr (Or.inl rfl)
    | some f =>
      by_cases hin : range.1 ≤ f.rangeStart ∧ f.rangeEnd ≤ range.2
      · exact (mem_setTree_anchor s range f off force hs hin _).mpr (Or.inl rfl)
      · exact (mem_setTree_anchorOut s range f off force hs hin _).mpr (Or.inl rfl)
  have fact3 : ∀ e ∈ s.tree, range.2 < e.1 →
      e ∈ (s.setDesiredOffsets range ft off force).tree := by
    intro e he hgt
    cases hft' : ft with
    | none =>
      refine (mem_setTree_plain s range off force hs _).mpr ?_
      exact Or.inr ⟨by omega, Or.inr ⟨by omega, he, by omega⟩⟩
    | some f =>
      have hfr := hft f hft'
      by_cases hin : range.1 ≤ f.rangeStart ∧ f.rangeEnd ≤ range.2
      · refine (mem_setTree_anchor s range f off force hs hin _).mpr ?_
        have h1 : f.rangeStart ≤ range.2 := le_trans hfr hin.2
        exact Or.inr ⟨by omega, Or.inr ⟨by omega, Or.inr ⟨by omega,
          Or.inr ⟨by omega, he, by omega⟩⟩⟩⟩
      · refine (mem_setTree_anchorOut s range f off force hs hin _).mpr ?_
        exact Or.inr ⟨by omega, Or.inr ⟨by omega, he, by omega⟩⟩
  by_cases hcase : range.2 < E.1
  · have : BinarySearchTree.findLe (s.setDesiredOffsets range ft off force).tree p = some E := by
      refine (BinarySearchTree.findLe_eq_some_iff hs').mpr
        ⟨fact3 E hEc.1 hcase, hEc.2.1, ?_⟩
      intro a ha hap
      rcases fact1 a ha with ⟨haold, _⟩ | hale
      · exact hEc.2.2 a haold hap
      · omega
    rw [this, hE]
  · have hfloor : BinarySearchTree.findLe s.tree range.2 = some E := by
      refine (BinarySearchTree.findLe_eq_some_iff hs).mpr ⟨hEc.1, by omega, ?_⟩
      intro a ha hap
      exact hEc.2.2 a ha (by omega)
    have hfv : BinarySearchTree.floorValue s.tree range.2 = E.2 := by
      unfold BinarySearchTree.floorValue
      rw [hfloor]
    have : BinarySearchTree.findLe (s.setDesiredOffsets range ft off force).tree p
        = some (range.2, E.2) := by
      refine (BinarySearchTree.findLe_eq_some_iff hs').mpr ⟨hfv ▸ fact2, hp, ?_⟩
      intro a ha hap
      rcases fact1 a ha with ⟨haold, hcond⟩ | hale
      · rcases hcond with hlow | hhigh
        · omega
        · have := hEc.2.2 a haold hap
          omega
      · exact hale
    rw [this, hE]
    rfl

theorem findLe_setDesiredOffsets_lt (s : OffsetStorage) (range : Nat × Nat)
    (ft : Option Token) (off : Int) (force : Bool)
    (hs : BinarySearchTree.Sorted s.tree)
    (hr : range.1 ≤ range.2)
    (hft : ∀ f, ft = some f → f.rangeStart ≤ f.rangeEnd)
    (p : Nat) (hp : p < range.1) :
    BinarySearchTree.findLe (s.setDesiredOffsets range ft off force).tree p
      = BinarySearchTree.findLe s.tree p := by
  have hs' := sorted_setDesiredOffsets s range ft off force hs
  -- every entry of the new tree is an old entry, or has key at least range.1
  have fact1 : ∀ e ∈ (s.setDesiredOffsets range ft off force).tree,
      (e ∈ s.tree ∧ (e.1 < range.1 + 1 ∨ range.2 ≤ e.1)) ∨ range.1 ≤ e.1 := by
    intro e he
    cases hft' : ft with
    | none =>
      rw [hft'] at he
      rw [mem_setTree_plain s range off force hs] at he
      rcases he with rfl | ⟨_, rfl | ⟨_, he, hcond⟩⟩
      · exact Or.inr hr
      · exact Or.inr (le_refl _)
      · exact Or.inl ⟨he, hcond⟩
    | some f =>
      rw [hft'] at he
      by_cases hin : range.1 ≤ f.rangeStart ∧ f.rangeEnd ≤ range.2
      · rw [mem_setTree_anchor s range f off force hs hin] at he
        have hfr := hft f hft'
        rcases he with rfl | ⟨_, rfl | ⟨_, rfl | ⟨_, rfl | ⟨_, he, hcond⟩⟩⟩⟩
        · exact Or.inr hr
        · exact Or.inr (le_trans hin.1 hfr)
        · exact Or.inr hin.1
        · exact Or.inr (le_refl _)
        · exact Or.inl ⟨he, hcond⟩
      · rw [mem_setTree_anchorOut s range f off force hs hin] at he
        rcases he with rfl | ⟨_, rfl | ⟨_, he, hcond⟩⟩
        · exact Or.inr hr
        · exact Or.inr (le_refl _)
        · exact Or.inl ⟨he, hcond⟩
  cases hE : BinarySearchTree.findLe s.tree p with
  | none =>
    have hnone := (BinarySearchTree.findLe_eq_none_iff hs).mp hE
    refine (BinarySearchTree.findLe_eq_none_iff hs').mpr ?_
    intro e he
    rcases fact1 e he with ⟨heold, _⟩ | hge
    · exact hnone e heold
    · omega
  | some E =>
    have hEc := (BinarySearchTree.findLe_eq_some_iff hs).mp hE
    have hEle : E.1 ≤ p := hEc.2.1
    refine (BinarySearchTree.findLe_eq_some_iff hs').mpr ⟨?_, hEle, ?_⟩
    · cases hft' : ft with
      | none =>
        refine (mem_setTree_plain s range off force hs _).mpr ?_
        exact Or.inr ⟨by omega, Or.inr ⟨by omega, hEc.1, by omega⟩⟩
      | some f =>
        have hfr := hft f hft'
        by_cases hin : range.1 ≤ f.rangeStart ∧ f.rangeEnd ≤ range.2
        · refine (mem_setTree_anchor s range f off force hs hin _).mpr ?_
          exact Or.inr ⟨by omega, Or.inr ⟨by omega, Or.inr ⟨by omega,
            Or.inr ⟨by omega, hEc.1, by omega⟩⟩⟩⟩
        · refine (mem_setTree_anchorOut s range f off force hs hin _).mpr ?_
          exact Or.inr ⟨by omega, Or.inr ⟨by omega, hEc.1, by omega⟩⟩
    · intro a ha hap
      rcases fact1 a ha with ⟨haold, _⟩ | hge
      · exact hEc.2.2 a haold hap
      · omega

end OffsetStorage

namespace OffsetStorage

theorem getDesiredIndent_cached (fuel : Nat) (s : OffsetStorage) (t : Token) (v : Rat)
    (h : lookupA s.desiredIndentCache t.id = some v) :
    getDesiredIndent (fuel + 1) s t = some (v, s) := by
  simp only [getDesiredIndent, h]

theorem getDesiredIndent_ignored (fuel : Nat) (s : OffsetStorage) (t : Token)
    (hcache : lookupA s.desiredIndentCache t.id = none)
    (hign : t.id ∈ s.ignoredTokens) :
    getDesiredIndent (fuel + 1) s t =
      some (((s.tokenInfo.getTokenIndent t).length : Rat) / (s.indentSize : Rat),
        s.cacheSet t.id (((s.tokenInfo.getTokenIndent t).length : Rat) / (s.indentSize : Rat))) := by
  simp only [getDesiredIndent, hcache, if_pos hign]

theorem getDesiredIndent_from_some (fuel : Nat) (s : OffsetStorage) (t f : Token)
    (v : Rat) (s' : OffsetStorage)
    (hcache : lookupA s.desiredIndentCache t.id = none)
    (hign : t.id ∉ s.ignoredTokens)
    (hlock : lookupA s.lockedFirstTokens t.id = none)
    (hfrom : (s.getOffsetDescriptor t).fromTok = some f)
    (hrec : getDesiredIndent fuel s f = some (v, s')) :
    getDesiredIndent (fuel + 1) s t =
      some (((collapsedOffset (s.getOffsetDescriptor t) t : Int) : Rat) + v,
        s'.cacheSet t.id (((collapsedOffset (s.getOffsetDescriptor t) t : Int) : Rat) + v)) := by
  simp only [getDesiredIndent, hcache, if_neg hign, hlock, hfrom, hrec]

theorem getDesiredIndent_from_some_stuck (fuel : Nat) (s : OffsetStorage) (t f : Token)
    (hcache : lookupA s.desiredIndentCache t.id = none)
    (hign : t.id ∉ s.ignoredTokens)
    (hlock : lookupA s.lockedFirstTokens t.id = none)
    (hfrom : (s.getOffsetDescriptor t).fromTok = some f)
    (hrec : getDesiredIndent fuel s f = none) :
    getDesiredIndent (fuel + 1) s t = none := by
  simp only [getDesiredIndent, hcache, if_neg hign, hlock, hfrom, hrec]

theorem getDesiredIndent_from_none (fuel : Nat) (s : OffsetStorage) (t : Token)
    (hcache : lookupA s.desiredIndentCache t.id = none)
    (hign : t.id ∉ s.ignoredTokens)
    (hlock : lookupA s.lockedFirstTokens t.id = none)
    (hfrom : (s.getOffsetDescriptor t).fromTok = none) :
    getDesiredIndent (fuel + 1) s t =
      some ((((s.getOffsetDescriptor t).offset : Int) : Rat),
        s.cacheSet t.id (((s.getOffsetDescriptor t).offset : Int) : Rat)) := by
  simp only [getDesiredIndent, hcache, if_neg hign, hlock, hfrom]
  have : collapsedOffset (s.getOffsetDescriptor t) t = (s.getOffsetDescriptor t).offset := by
    unfold collapsedOffset
    rw [hfrom]
  rw [this]

end OffsetStorage

theorem lookupA_setA_self {α : Type} (l : List (Nat × α)) (k : Nat) (v : α) :
    lookupA (setA l k v) k = some v := by
  induction l with
  | nil => simp [setA, lookupA]
  | cons e rest ih =>
    by_cases h : e.1 = k
    · simp [setA, if_pos h, lookupA]
    · simp [setA, if_neg h, lookupA, if_neg h, ih]

theorem applyCall_cache (s : OffsetStorage) (c : Call) :
    (applyCall s c).desiredIndentCache = s.desiredIndentCache := by
  cases c with
  | setOffsets range ft off force => rfl
  | matchIndent b o => rfl
  | matchOffset b o => rfl
  | ignore t =>
    simp only [applyCall, OffsetStorage.ignoreToken]
    split <;> rfl

theorem applyCall_locked (s : OffsetStorage) (c : Call) (h : ∀ b o, c ≠ Call.matchOffset b o) :
    (applyCall s c).lockedFirstTokens = s.lockedFirstTokens := by
  cases c with
  | setOffsets range ft off force => rfl
  | matchIndent b o => rfl
  | matchOffset b o => exact absurd rfl (h b o)
  | ignore t =>
    simp only [applyCall, OffsetStorage.ignoreToken]
    split <;> rfl

theorem applyCalls_cache (s : OffsetStorage) (cs : List Call) :
    (applyCalls s cs).desiredIndentCache = s.desiredIndentCache := by
  induction cs generalizing s with
  | nil => rfl
  | cons c rest ih =>
    show (applyCalls (applyCall s c) rest).desiredIndentCache = s.desiredIndentCache
    rw [ih, applyCall_cache]

theorem matchOffsetOf_tree (s : OffsetStorage) (b o : Token) :
    (s.matchOffsetOf b o).tree = s.tree := rfl

theorem ignoreToken_tree (s : OffsetStorage) (t : Token) :
    (s.ignoreToken t).tree = s.tree := by
  simp only [OffsetStorage.ignoreToken]
  split <;> rfl

theorem storeWF_applyCall (s : OffsetStorage) (c : Call) (h : StoreWF s) :
    StoreWF (applyCall s c) := by
  cases c with
  | setOffsets range ft off force =>
    exact ⟨OffsetStorage.sorted_setDesiredOffsets s range ft off force h.1,
      OffsetStorage.key0_setDesiredOffsets s range ft off force h.1 h.2⟩
  | matchIndent b o =>
    exact ⟨OffsetStorage.sorted_setDesiredOffsets s _ _ _ _ h.1,
      OffsetStorage.key0_setDesiredOffsets s _ _ _ _ h.1 h.2⟩
  | matchOffset b o =>
    exact ⟨by rw [applyCall, matchOffsetOf_tree]; exact h.1,
      by rw [applyCall, matchOffsetOf_tree]; exact h.2⟩
  | ignore t =>
    exact ⟨by rw [applyCall, ignoreToken_tree]; exact h.1,
      by rw [applyCall, ignoreToken_tree]; exact h.2⟩

theorem storeWF_mkStorage (ti : TokenInfo) (n : Nat) :
    StoreWF (OffsetStorage.mkStorage ti n) := by
  constructor
  · simp [OffsetStorage.mkStorage, BinarySearchTree.insert, BinarySearchTree.Sorted]
  · exact ⟨⟨0, none, false⟩, by simp [OffsetStorage.mkStorage, BinarySearchTree.insert]⟩

theorem storeWF_applyCalls (s : OffsetStorage) (cs : List Call) (h : StoreWF s) :
    StoreWF (applyCalls s cs) := by
  induction cs generalizing s with
  | nil => exact h
  | cons c rest ih =>
    show StoreWF (applyCalls (applyCall s c) rest)
    exact ih (applyCall s c) (storeWF_applyCall s c h)

theorem floor_applyCall_avoid (s : OffsetStorage) (c : Call) (p : Nat)
    (h : StoreWF s) (hv : Call.valid c = true) (ha : Call.avoidsPos c p = true) :
    (BinarySearchTree.findLe (applyCall s c).tree p).map Prod.snd
      = (BinarySearchTree.findLe s.tree p).map Prod.snd := by
  cases c with
  | setOffsets range ft off force =>
    simp only [Call.valid, Bool.and_eq_true, decide_eq_true_eq] at hv
    simp only [Call.avoidsPos, Bool.not_eq_true', Bool.and_eq_true_iff] at ha
    have hft : ∀ f, ft = some f → f.rangeStart ≤ f.rangeEnd := by
      intro f hf
      rw [hf] at hv
      have := hv.2
      simp only [Token.WF, decide_eq_true_eq] at this
      omega
    have hp : p < range.1 ∨ range.2 ≤ p := by
      by_cases h1 : range.1 ≤ p
      · by_cases h2 : p < range.2
        · exfalso
          rw [decide_eq_true h1, decide_eq_true h2] at ha
          simp at ha
        · omega
      · omega
    rcases hp with hp | hp
    · rw [show applyCall s (Call.setOffsets range ft off force)
          = s.setDesiredOffsets range ft off force from rfl,
        OffsetStorage.findLe_setDesiredOffsets_lt s range ft off force h.1 hv.1 hft p hp]
    · exact OffsetStorage.findLe_setDesiredOffsets_ge s range ft off force h.1 h.2 hv.1 hft p hp
  | matchIndent b o =>
    simp only [Call.valid, Bool.and_eq_true, Token.WF, decide_eq_true_eq] at hv
    simp only [Call.avoidsPos, Bool.not_eq_true', Bool.and_eq_true_iff] at ha
    have hft : ∀ f, (some b : Option Token) = some f → f.rangeStart ≤ f.rangeEnd := by
      intro f hf
      cases hf
      omega
    have hr : o.rangeStart ≤ o.rangeEnd := by omega
    have hp : p < o.rangeStart ∨ o.rangeEnd ≤ p := by
      by_cases h1 : o.rangeStart ≤ p
      · by_cases h2 : p < o.rangeEnd
        · exfalso
          rw [decide_eq_true h1, decide_eq_true h2] at ha
          simp at ha
        · omega
      · omega
    rcases hp with hp | hp
    · rw [show applyCall s (Call.matchIndent b o)
          = s.setDesiredOffsets (o.rangeStart, o.rangeEnd) (some b) 0 false from rfl,
        OffsetStorage.findLe_setDesiredOffsets_lt s (o.rangeStart, o.rangeEnd)
          (some b) 0 false h.1 hr hft p hp]
    · exact OffsetStorage.findLe_setDesiredOffsets_ge s (o.rangeStart, o.rangeEnd)
        (some b) 0 false h.1 h.2 hr hft p hp
  | matchOffset b o => rw [applyCall, matchOffsetOf_tree]
  | ignore t => rw [applyCall, ignoreToken_tree]

theorem floor_applyCalls_avoid (s : OffsetStorage) (cs : List Call) (p : Nat)
    (h : StoreWF s) (hv : ∀ c ∈ cs, Call.valid c = true)
    (ha : ∀ c ∈ cs, Call.avoidsPos c p = true) :
    (BinarySearchTree.findLe (applyCalls s cs).tree p).map Prod.snd
      = (BinarySearchTree.findLe s.tree p).map Prod.snd := by
  induction cs generalizing s with
  | nil => rfl
  | cons c rest ih =>
    show (BinarySearchTree.findLe (applyCalls (applyCall s c) rest).tree p).map Prod.snd = _
    rw [ih (applyCall s c) (storeWF_applyCall s c h)
      (fun d hd => hv d (List.mem_cons_of_mem c hd))
      (fun d hd => ha d (List.mem_cons_of_mem c hd))]
    exact floor_applyCall_avoid s c p h (hv c (List.mem_cons_self c rest))
      (ha c (List.mem_cons_self c rest))

theorem getDesiredIndent_cache_sound (fuel : Nat) (s : OffsetStorage) (t : Token)
    (v : Rat) (s' : OffsetStorage)
    (h : OffsetStorage.getDesiredIndent fuel s t = some (v, s')) :
    lookupA s'.desiredIndentCache t.id = some v := by
  cases fuel with
  | zero => simp [OffsetStorage.getDesiredIndent] at h
  | succ n =>
    simp only [OffsetStorage.getDesiredIndent] at h
    split at h
    · -- cache hit
      rename_i w hw
      obtain ⟨rfl, rfl⟩ := Prod.mk.injEq _ _ _ _ ▸ Option.some.injEq _ _ ▸ h
      exact hw
    · split at h
      · -- ignored
        obtain ⟨rfl, rfl⟩ := Prod.mk.injEq _ _ _ _ ▸ Option.some.injEq _ _ ▸ h
        exact lookupA_setA_self _ _ _
      · split at h
        · -- locked branch
          split at h
          · exact absurd h (by simp)
          · split at h
            · exact absurd h (by simp)
            · rename_i w hw lf hlf res hres
              obtain ⟨rfl, rfl⟩ := Prod.mk.injEq _ _ _ _ ▸ Option.some.injEq _ _ ▸ h
              exact lookupA_setA_self _ _ _
        · -- descriptor branch
          split at h
          · split at h
            · exact absurd h (by simp)
            · obtain ⟨rfl, rfl⟩ := Prod.mk.injEq _ _ _ _ ▸ Option.some.injEq _ _ ▸ h
              exact lookupA_setA_self _ _ _
          · obtain ⟨rfl, rfl⟩ := Prod.mk.injEq _ _ _ _ ▸ Option.some.injEq _ _ ▸ h
            exact lookupA_setA_self _ _ _

/-- C1: starting from the initial state (a single breakpoint at key 0 with the
descriptor offset 0, anchor none, force false), after any finite sequence of
declaration calls whose ranges satisfy `0 ≤ a ≤ b`, the breakpoint keys of the
interval store are strictly increasing, a breakpoint at key 0 is always
present, and for every position `p ≥ 0` the predecessor query `findLe`
returns exactly one entry (no gaps, no overlaps). -/
theorem C1_tiling_invariant (ti : TokenInfo) (indentSize : Nat) (cs : List Call)
    (hval : ∀ c ∈ cs, Call.valid c = true) :
    BinarySearchTree.Sorted (applyCalls (OffsetStorage.mkStorage ti indentSize) cs).tree ∧
    (∃ d, (0, d) ∈ (applyCalls (OffsetStorage.mkStorage ti indentSize) cs).tree) ∧
    ∀ p : Nat, ∃! e, BinarySearchTree.findLe
      (applyCalls (OffsetStorage.mkStorage ti indentSize) cs).tree p = some e := by
  have hwf := storeWF_applyCalls (OffsetStorage.mkStorage ti indentSize) cs
    (storeWF_mkStorage ti indentSize)
  refine ⟨hwf.1, hwf.2, ?_⟩
  intro p
  obtain ⟨d, hd⟩ := hwf.2
  obtain ⟨e, he⟩ := BinarySearchTree.findLe_isSome hwf.1 hd (Nat.zero_le p)
  refine ⟨e, he, ?_⟩
  intro y hy
  rw [he] at hy
  injection hy with hy
  exact hy.symm

/-- Witness for C1: a concrete valid call sequence, with the invariant
checked and the predecessor query evaluated at position 7. -/
theorem C1_tiling_invariant_witness :
    (∀ c ∈ [Call.setOffsets (0, 5) none 1 false, Call.matchIndent exT exAnchor],
      Call.valid c = true) ∧
    (∃! e, BinarySearchTree.findLe
      (applyCalls (OffsetStorage.mkStorage exTi 4)
        [Call.setOffsets (0, 5) none 1 false, Call.matchIndent exT exAnchor]).tree 7
      = some e) :=
  ⟨by decide,
    (C1_tiling_invariant exTi 4
      [Call.setOffsets (0, 5) none 1 false, Call.matchIndent exT exAnchor]
      (by decide)).2.2 7⟩

/-- C3: after `setDesiredOffsets(R, A, 1)` with `force` falsy, every token `t`
starting in `R`, governed by the newly declared descriptor (offset 1, anchor
`A`, not forced), whose start line equals `A`'s start line, resolves to the
same value as the anchor. -/
theorem C3_same_line_collapse (s : OffsetStorage) (R : Nat × Nat) (A t : Token)
    (fuel : Nat) (v : Rat)
    (hR : R.1 ≤ t.rangeStart ∧ t.rangeStart < R.2)
    (hcache : lookupA (s.setDesiredOffsets R (some A) 1 false).desiredIndentCache t.id = none)
    (hign : t.id ∉ (s.setDesiredOffsets R (some A) 1 false).ignoredTokens)
    (hlock : lookupA (s.setDesiredOffsets R (some A) 1 false).lockedFirstTokens t.id = none)
    (hgov : (s.setDesiredOffsets R (some A) 1 false).getOffsetDescriptor t = ⟨1, some A, false⟩)
    (hline : A.startLine = t.startLine)
    (hA : (OffsetStorage.getDesiredIndent fuel (s.setDesiredOffsets R (some A) 1 false) A).map
      Prod.fst = some v) :
    (OffsetStorage.getDesiredIndent (fuel + 1) (s.setDesiredOffsets R (some A) 1 false) t).map
      Prod.fst = some v := by
  cases hA' : OffsetStorage.getDesiredIndent fuel (s.setDesiredOffsets R (some A) 1 false) A with
  | none => rw [hA'] at hA; simp at hA
  | some pair =>
    obtain ⟨w, s₂⟩ := pair
    rw [hA'] at hA
    simp only [Option.map_some'] at hA
    have hw : w = v := Option.some.injEq w v ▸ hA
    rw [OffsetStorage.getDesiredIndent_from_some fuel _ t A w s₂ hcache hign hlock
      (by rw [hgov]) hA']
    have hco : OffsetStorage.collapsedOffset
        ((s.setDesiredOffsets R (some A) 1 false).getOffsetDescriptor t) t = 0 := by
      rw [hgov]
      unfold OffsetStorage.collapsedOffset
      simp [hline]
    rw [hco, hw]
    simp

/-- Witness for C3: a concrete store where the anchor sits after the declared
range on the same line as the dependent token; both resolve to 0. -/
theorem C3_same_line_collapse_witness :
    (OffsetStorage.getDesiredIndent 2 (exS0.setDesiredOffsets (0, 10) (some exAnchor) 1 false)
      exT).map Prod.fst = some 0 :=
  C3_same_line_collapse exS0 (0, 10) exAnchor exT 1 0 (by decide) (by decide) (by decide)
    (by decide) (by decide) (by decide) (by decide)

/-- C4: after `setDesiredOffsets(R, A, 1, true)` (forced), a token governed by
the new descriptor on the anchor's line resolves to the anchor's value plus 1:
the same-line collapse is suppressed by the force flag. -/
theorem C4_forced_overrides_collapse (s : OffsetStorage) (R : Nat × Nat) (A t : Token)
    (fuel : Nat) (v : Rat)
    (hR : R.1 ≤ t.rangeStart ∧ t.rangeStart < R.2)
    (hcache : lookupA (s.setDesiredOffsets R (some A) 1 true).desiredIndentCache t.id = none)
    (hign : t.id ∉ (s.setDesiredOffsets R (some A) 1 true).ignoredTokens)
    (hlock : lookupA (s.setDesiredOffsets R (some A) 1 true).lockedFirstTokens t.id = none)
    (hgov : (s.setDesiredOffsets R (some A) 1 true).getOffsetDescriptor t = ⟨1, some A, true⟩)
    (hline : A.startLine = t.startLine)
    (hA : (OffsetStorage.getDesiredIndent fuel (s.setDesiredOffsets R (some A) 1 true) A).map
      Prod.fst = some v) :
    (OffsetStorage.getDesiredIndent (fuel + 1) (s.setDesiredOffsets R (some A) 1 true) t).map
      Prod.fst = some (v + 1) := by
  cases hA' : OffsetStorage.getDesiredIndent fuel (s.setDesiredOffsets R (some A) 1 true) A with
  | none => rw [hA'] at hA; simp at hA
  | some pair =>
    obtain ⟨w, s₂⟩ := pair
    rw [hA'] at hA
    simp only [Option.map_some'] at hA
    have hw : w = v := Option.some.injEq w v ▸ hA
    rw [OffsetStorage.getDesiredIndent_from_some fuel _ t A w s₂ hcache hign hlock
      (by rw [hgov]) hA']
    have hco : OffsetStorage.collapsedOffset
        ((s.setDesiredOffsets R (some A) 1 true).getOffsetDescriptor t) t = 1 := by
      rw [hgov]
      unfold OffsetStorage.collapsedOffset
      simp
    rw [hco, hw]
    simp only [Option.map_some']
    rw [add_comm]
    norm_num

/-- Witness for C4: the forced variant of the C3 scenario; the dependent
token resolves to 1 while the anchor resolves to 0. -/
theorem C4_forced_overrides_collapse_witness :
    (OffsetStorage.getDesiredIndent 2 (exS0.setDesiredOffsets (0, 10) (some exAnchor) 1 true)
      exT).map Prod.fst = some (0 + 1) :=
  C4_forced_overrides_collapse exS0 (0, 10) exAnchor exT 1 0 (by decide) (by decide) (by decide)
    (by decide) (by decide) (by decide) (by decide)

/-- C5: a `setDesiredOffsets([a, b], anchor, level, force)` call does not leak
past its declared boundary: for every position `p ≥ b` the descriptor value
returned by `findLe(p)` is unchanged, and the descriptor that was active at
`b` is reinstated as a breakpoint at key `b`. -/
theorem C5_no_leak_past_boundary (s : OffsetStorage) (range : Nat × Nat)
    (ft : Option Token) (off : Int) (force : Bool)
    (hwf : StoreWF s) (hr : range.1 ≤ range.2)
    (hft : ∀ f, ft = some f → f.rangeStart ≤ f.rangeEnd)
    (p : Nat) (hp : range.2 ≤ p) :
    (BinarySearchTree.findLe (s.setDesiredOffsets range ft off force).tree p).map Prod.snd
      = (BinarySearchTree.findLe s.tree p).map Prod.snd ∧
    (range.2, BinarySearchTree.floorValue s.tree range.2)
      ∈ (s.setDesiredOffsets range ft off force).tree := by
  refine ⟨OffsetStorage.findLe_setDesiredOffsets_ge s range ft off force hwf.1 hwf.2
    hr hft p hp, ?_⟩
  cases hft' : ft with
  | none => exact (OffsetStorage.mem_setTree_plain s range off force hwf.1 _).mpr (Or.inl rfl)
  | some f =>
    by_cases hin : range.1 ≤ f.rangeStart ∧ f.rangeEnd ≤ range.2
    · exact (OffsetStorage.mem_setTree_anchor s range f off force hwf.1 hin _).mpr (Or.inl rfl)
    · exact (OffsetStorage.mem_setTree_anchorOut s range f off force hwf.1 hin _).mpr (Or.inl rfl)

/-- Witness for C5: a concrete declaration over `[2, 8)` leaves the
descriptor at position 9 unchanged. -/
theorem C5_no_leak_past_boundary_witness :
    (BinarySearchTree.findLe (exS0.setDesiredOffsets (2, 8) (some exT) 1 false).tree 9).map
        Prod.snd
      = (BinarySearchTree.findLe exS0.tree 9).map Prod.snd ∧
    ((2, 8) : Nat × Nat).2 ≤ 9 :=
  ⟨(C5_no_leak_past_boundary exS0 (2, 8) (some exT) 1 false
      ⟨by decide, ⟨⟨0, none, false⟩, by decide⟩⟩ (by decide)
      (fun f hf => by cases hf; decide) 9 (by decide)).1,
    by decide⟩

/-- C8: a token whose start position is avoided by every declaration call in
a valid sequence from the initial state, and which is neither ignored nor
alignment-locked, resolves to 0 (it is still governed by the initial
whole-domain descriptor). -/
theorem C8_default_resolution_zero (ti : TokenInfo) (indentSize : Nat)
    (cs : List Call) (t : Token) (fuel : Nat)
    (hval : ∀ c ∈ cs, Call.valid c = true)
    (havoid : ∀ c ∈ cs, Call.avoidsPos c t.rangeStart = true)
    (hign : t.id ∉ (applyCalls (OffsetStorage.mkStorage ti indentSize) cs).ignoredTokens)
    (hlock : lookupA (applyCalls (OffsetStorage.mkStorage ti indentSize) cs).lockedFirstTokens
      t.id = none) :
    (OffsetStorage.getDesiredIndent (fuel + 1)
      (applyCalls (OffsetStorage.mkStorage ti indentSize) cs) t).map Prod.fst = some 0 := by
  have hfloor := floor_applyCalls_avoid (OffsetStorage.mkStorage ti indentSize) cs t.rangeStart
    (storeWF_mkStorage ti indentSize) hval havoid
  have hbase : BinarySearchTree.findLe (OffsetStorage.mkStorage ti indentSize).tree t.rangeStart
      = some (0, ⟨0, none, false⟩) := by
    simp [OffsetStorage.mkStorage, BinarySearchTree.insert, BinarySearchTree.findLe]
  rw [hbase] at hfloor
  have hdesc : (applyCalls (OffsetStorage.mkStorage ti indentSize) cs).getOffsetDescriptor t
      = ⟨0, none, false⟩ := by
    unfold OffsetStorage.getOffsetDescriptor BinarySearchTree.floorValue
    cases hf : BinarySearchTree.findLe
        (applyCalls (OffsetStorage.mkStorage ti indentSize) cs).tree t.rangeStart with
    | none => rfl
    | some e =>
      rw [hf] at hfloor
      simp only [Option.map_some', Option.some.injEq] at hfloor
      exact hfloor
  have hcache : lookupA (applyCalls (OffsetStorage.mkStorage ti indentSize) cs).desiredIndentCache
      t.id = none := by
    rw [applyCalls_cache]
    rfl
  rw [OffsetStorage.getDesiredIndent_from_none fuel _ t hcache hign hlock (by rw [hdesc])]
  rw [hdesc]
  simp

/-- Witness for C8: position 0 (token `exT9`) is avoided by a declaration
over the range from 2 to 8, so the token still resolves to 0. -/
theorem C8_default_resolution_zero_witness :
    (∀ c ∈ [Call.setOffsets (2, 8) (some exT) 1 false], Call.avoidsPos c exT9.rangeStart = true) ∧
    (OffsetStorage.getDesiredIndent 1
      (applyCalls (OffsetStorage.mkStorage exTi 4) [Call.setOffsets (2, 8) (some exT) 1 false])
      exT9).map Prod.fst = some 0 :=
  ⟨by decide,
    C8_default_resolution_zero exTi 4 [Call.setOffsets (2, 8) (some exT) 1 false] exT9 0
      (by decide) (by decide) (by decide) (by decide)⟩

/-- C9 counterexample: the token `exT9` has a trivially acyclic anchor chain
(its governing descriptor has no anchor), yet it is alignment-locked to
`exBase9`, whose line's first token is `exT9` itself, so `getDesiredIndent`
recurses onto the very token being resolved before any cache write and
diverges — refuting the claim that an acyclic anchor chain alone guarantees
termination. -/
theorem C9_counterexample :
    fromChain exS9 1 exT9 = none ∧
    lookupA exS9.lockedFirstTokens exT9.id = some exBase9 ∧
    exS9.tokenInfo.getFirstTokenOfLine exBase9 = some exT9 ∧
    lookupA exS9.desiredIndentCache exT9.id = none ∧
    OffsetStorage.getDesiredIndent 30 exS9 exT9 = none := by
  decide

/-- C9 amended: resolution terminates whenever the anchor chain from the token is
acyclic — it reaches a descriptor with no anchor after finitely many steps —
and no token along the chain is alignment-locked.  The chain length bounds
the recursion depth. -/
theorem C9_resolution_terminates (s : OffsetStorage) (t : Token) (n : Nat)
    (hend : fromChain s n t = none)
    (hlock : ∀ m u, fromChain s m t = some u → lookupA s.lockedFirstTokens u.id = none) :
    ∃ v s', OffsetStorage.getDesiredIndent n s t = some (v, s') := by
  induction n generalizing t with
  | zero => simp [fromChain] at hend
  | succ m ih =>
    have hlt := hlock 0 t (by simp [fromChain])
    cases hcache : lookupA s.desiredIndentCache t.id with
    | some v => exact ⟨v, s, OffsetStorage.getDesiredIndent_cached m s t v hcache⟩
    | none =>
      by_cases hign : t.id ∈ s.ignoredTokens
      · exact ⟨_, _, OffsetStorage.getDesiredIndent_ignored m s t hcache hign⟩
      · cases hfrom : (s.getOffsetDescriptor t).fromTok with
        | none =>
          exact ⟨_, _, OffsetStorage.getDesiredIndent_from_none m s t hcache hign hlt hfrom⟩
        | some u =>
          have hend' : fromChain s m u = none := by
            rw [fromChain, hfrom] at hend
            exact hend
          have hlock' : ∀ k w, fromChain s k u = some w →
              lookupA s.lockedFirstTokens w.id = none := by
            intro k w hk
            refine hlock (k + 1) w ?_
            rw [fromChain, hfrom]
            exact hk
          obtain ⟨v, s', hv⟩ := ih u hend' hlock'
          exact ⟨_, _, OffsetStorage.getDesiredIndent_from_some m s t u v s' hcache hign hlt
            hfrom hv⟩

/-- Witness for C9: in the fresh store the chain from `exT9` ends after one
step, and resolution indeed terminates with fuel 1. -/
theorem C9_resolution_terminates_witness :
    fromChain exS0 1 exT9 = none ∧
    ∃ v s', OffsetStorage.getDesiredIndent 1 exS0 exT9 = some (v, s') :=
  ⟨by decide,
    C9_resolution_terminates exS0 exT9 1 (by decide) (by
      intro m u h
      cases m with
      | zero =>
        simp only [fromChain] at h
        injection h with h
        subst h
        rfl
      | succ k =>
        rw [fromChain, show (exS0.getOffsetDescriptor exT9).fromTok = none from by decide] at h
        exact absurd h (by simp))⟩

/-- C10: once `getDesiredIndent` has returned a value for a token, every
subsequent query on the storage returns the same value, even after further
`setDesiredOffsets`, `matchIndentOf`, `matchOffsetOf` or `ignoreToken` calls:
declarations never invalidate the memo cache. -/
theorem C10_memoization_never_invalidated (s : OffsetStorage) (t : Token)
    (fuel fuel' : Nat) (v : Rat) (s₁ : OffsetStorage) (cs : List Call)
    (h : OffsetStorage.getDesiredIndent fuel s t = some (v, s₁)) :
    OffsetStorage.getDesiredIndent (fuel' + 1) (applyCalls s₁ cs) t
      = some (v, applyCalls s₁ cs) := by
  have hc := getDesiredIndent_cache_sound fuel s t v s₁ h
  have hc' : lookupA (applyCalls s₁ cs).desiredIndentCache t.id = some v := by
    rw [applyCalls_cache]
    exact hc
  exact OffsetStorage.getDesiredIndent_cached fuel' _ t v hc'

/-- Witness for C10: `exT9` resolves to 0, and still resolves to 0 after a
declaration covering it and an ignore call for it. -/
theorem C10_memoization_never_invalidated_witness :
    OffsetStorage.getDesiredIndent 1
      (applyCalls (exS0.cacheSet exT9.id 0)
        [Call.setOffsets (0, 5) (some exT9) 1 true, Call.ignore exT9]) exT9
      = some (0, applyCalls (exS0.cacheSet exT9.id 0)
        [Call.setOffsets (0, 5) (some exT9) 1 true, Call.ignore exT9]) :=
  C10_memoization_never_invalidated exS0 exT9 1 0 0 (exS0.cacheSet exT9.id 0)
    [Call.setOffsets (0, 5) (some exT9) 1 true, Call.ignore exT9] (by decide)

theorem getOffsetDescriptor_anchor_preserved (s : OffsetStorage) (range : Nat × Nat)
    (A : Token) (off : Int) (force : Bool)
    (hs : BinarySearchTree.Sorted s.tree)
    (hin : range.1 ≤ A.rangeStart ∧ A.rangeEnd ≤ range.2)
    (hA : A.rangeStart < A.rangeEnd) :
    (s.setDesiredOffsets range (some A) off force).getOffsetDescriptor A
      = s.getOffsetDescriptor A := by
  have hs' := OffsetStorage.sorted_setDesiredOffsets s range (some A) off force hs
  have hmem : (A.rangeStart, s.getOffsetDescriptor A)
      ∈ (s.setDesiredOffsets range (some A) off force).tree := by
    refine (OffsetStorage.mem_setTree_anchor s range A off force hs hin _).mpr ?_
    exact Or.inr ⟨show A.rangeStart ≠ range.2 from by omega,
      Or.inr ⟨show A.rangeStart ≠ A.rangeEnd from by omega, Or.inl rfl⟩⟩
  have hfind := BinarySearchTree.findLe_mem_self hs' hmem
  unfold OffsetStorage.getOffsetDescriptor
  unfold BinarySearchTree.floorValue
  rw [hfind]
  exact rfl

/-- C2 counterexample.  First scenario: the anchor `exA` starts inside the
range `[0, 10)` but ends outside it; its prior descriptor is overwritten, it
becomes governed by the newly declared descriptor naming itself, and its
resolution diverges.  Second scenario: the anchor `exA2` is fully contained
in `[0, 9)`, so its own descriptor is preserved, yet the call rewrites the
descriptor of `exF` — the token `exA2`'s prior anchor — creating the cycle
`exA2 → exF → exA2`, after which `exA2`'s resolution, previously defined,
diverges.  Both refute the claim as stated. -/
theorem C2_counterexample :
    (exA.rangeStart < 10 ∧
      exC2after.getOffsetDescriptor exA ≠ exS0.getOffsetDescriptor exA ∧
      (exC2after.getOffsetDescriptor exA).fromTok = some exA) ∧
    ((0 ≤ exA2.rangeStart ∧ exA2.rangeEnd ≤ 9) ∧
      exC2sb.getOffsetDescriptor exA2 = exC2sa.getOffsetDescriptor exA2 ∧
      (exC2sb.getOffsetDescriptor exA2).fromTok = some exF ∧
      (exC2sb.getOffsetDescriptor exF).fromTok = some exA2 ∧
      (OffsetStorage.getDesiredIndent 3 exC2sa exA2).isSome = true ∧
      OffsetStorage.getDesiredIndent 12 exC2sb exA2 = none) := by
  decide

/-- C2 amended: when the anchor is fully contained in the declared range
(`range.start ≤ anchor.start` and `anchor.end ≤ range.end` — not merely
starting inside it) and the anchor occupies a nonempty range, the anchor's
own prior descriptor is preserved unchanged by `setDesiredOffsets`, so the
anchor does not become governed by the newly declared descriptor.  (The
resolved indentation of the anchor may nevertheless change when its prior
anchor chain passes through the range, as the counterexample shows.) -/
theorem C2_self_reference_avoidance (s : OffsetStorage) (range : Nat × Nat)
    (A : Token) (off : Int) (force : Bool)
    (hs : BinarySearchTree.Sorted s.tree)
    (hin : range.1 ≤ A.rangeStart ∧ A.rangeEnd ≤ range.2)
    (hA : A.rangeStart < A.rangeEnd) :
    (s.setDesiredOffsets range (some A) off force).getOffsetDescriptor A
      = s.getOffsetDescriptor A :=
  getOffsetDescriptor_anchor_preserved s range A off force hs hin hA

/-- Witness for C2 amended: a fully contained anchor keeps its initial
descriptor. -/
theorem C2_self_reference_avoidance_witness :
    (exS0.setDesiredOffsets (3, 10) (some exT) 2 false).getOffsetDescriptor exT
      = exS0.getOffsetDescriptor exT :=
  C2_self_reference_avoidance exS0 (3, 10) exT 2 false (by decide) (by decide) (by decide)

theorem setDesiredOffsets_idem (s : OffsetStorage) (R : Nat × Nat) (A : Token)
    (n : Int) (force : Bool)
    (hs : BinarySearchTree.Sorted s.tree) (h0 : ∃ d, (0, d) ∈ s.tree)
    (hr : R.1 ≤ R.2) (hA : A.rangeStart < A.rangeEnd) :
    (s.setDesiredOffsets R (some A) n force).setDesiredOffsets R (some A) n force
      = s.setDesiredOffsets R (some A) n force := by
  have hs1 := OffsetStorage.sorted_setDesiredOffsets s R (some A) n force hs
  have hs2 := OffsetStorage.sorted_setDesiredOffsets
    (s.setDesiredOffsets R (some A) n force) R (some A) n force hs1
  have htail : BinarySearchTree.floorValue (s.setDesiredOffsets R (some A) n force).tree R.2
      = BinarySearchTree.floorValue s.tree R.2 := by
    have hmem : (R.2, BinarySearchTree.floorValue s.tree R.2)
        ∈ (s.setDesiredOffsets R (some A) n force).tree := by
      by_cases hin : R.1 ≤ A.rangeStart ∧ A.rangeEnd ≤ R.2
      · exact (OffsetStorage.mem_setTree_anchor s R A n force hs hin _).mpr (Or.inl rfl)
      · exact (OffsetStorage.mem_setTree_anchorOut s R A n force hs hin _).mpr (Or.inl rfl)
    have hfind := BinarySearchTree.findLe_mem_self hs1 hmem
    unfold BinarySearchTree.floorValue
    rw [hfind]
    exact rfl
  have htree : ((s.setDesiredOffsets R (some A) n force).setDesiredOffsets R
      (some A) n force).tree = (s.setDesiredOffsets R (some A) n force).tree := by
    by_cases hin : R.1 ≤ A.rangeStart ∧ A.rangeEnd ≤ R.2
    · have holdA : BinarySearchTree.floorValue
          (s.setDesiredOffsets R (some A) n force).tree A.rangeStart
          = BinarySearchTree.floorValue s.tree A.rangeStart :=
        getOffsetDescriptor_anchor_preserved s R A n force hs hin hA
      apply BinarySearchTree.sorted_ext hs2 hs1
      intro e
      rw [OffsetStorage.mem_setTree_anchor
        (s.setDesiredOffsets R (some A) n force) R A n force hs1 hin e,
        OffsetStorage.mem_setTree_anchor s R A n force hs hin e, htail, holdA]
      constructor
      · rintro (h | ⟨h1, h | ⟨h2, h | ⟨h3, h | ⟨h4, he, hcond⟩⟩⟩⟩)
        · exact Or.inl h
        · exact Or.inr ⟨h1, Or.inl h⟩
        · exact Or.inr ⟨h1, Or.inr ⟨h2, Or.inl h⟩⟩
        · exact Or.inr ⟨h1, Or.inr ⟨h2, Or.inr ⟨h3, Or.inl h⟩⟩⟩
        · exact he
      · rintro (h | ⟨h1, h | ⟨h2, h | ⟨h3, h | ⟨h4, he, hcond⟩⟩⟩⟩)
        · exact Or.inl h
        · exact Or.inr ⟨h1, Or.inl h⟩
        · exact Or.inr ⟨h1, Or.inr ⟨h2, Or.inl h⟩⟩
        · exact Or.inr ⟨h1, Or.inr ⟨h2, Or.inr ⟨h3, Or.inl h⟩⟩⟩
        · exact Or.inr ⟨h1, Or.inr ⟨h2, Or.inr ⟨h3, Or.inr ⟨h4,
            Or.inr ⟨h1, Or.inr ⟨h2, Or.inr ⟨h3, Or.inr ⟨h4, he, hcond⟩⟩⟩⟩, hcond⟩⟩⟩⟩
    · apply BinarySearchTree.sorted_ext hs2 hs1
      intro e
      rw [OffsetStorage.mem_setTree_anchorOut
        (s.setDesiredOffsets R (some A) n force) R A n force hs1 hin e,
        OffsetStorage.mem_setTree_anchorOut s R A n force hs hin e, htail]
      constructor
      · rintro (h | ⟨h1, h | ⟨h2, he, hcond⟩⟩)
        · exact Or.inl h
        · exact Or.inr ⟨h1, Or.inl h⟩
        · exact he
      · rintro (h | ⟨h1, h | ⟨h2, he, hcond⟩⟩)
        · exact Or.inl h
        · exact Or.inr ⟨h1, Or.inl h⟩
        · exact Or.inr ⟨h1, Or.inr ⟨h2, Or.inr ⟨h1, Or.inr ⟨h2, he, hcond⟩⟩, hcond⟩⟩
  have hshape : (s.setDesiredOffsets R (some A) n force).setDesiredOffsets R (some A) n force
      = { s.setDesiredOffsets R (some A) n force with
          tree := ((s.setDesiredOffsets R (some A) n force).setDesiredOffsets R
            (some A) n force).tree } := rfl
  rw [hshape, htree]

/-- C6: performing `setDesiredOffsets(R, A, n)` (force falsy) twice in
immediate succession from a well-formed store yields the same resolved
indentation for every token as performing it once — in fact the two stores
are equal, so every `getDesiredIndent` query agrees. -/
theorem C6_declaration_idempotent (s : OffsetStorage) (R : Nat × Nat) (A : Token)
    (n : Int) (hwf : StoreWF s) (hr : R.1 ≤ R.2) (hA : A.rangeStart < A.rangeEnd)
    (fuel : Nat) (t : Token) :
    OffsetStorage.getDesiredIndent fuel
        ((s.setDesiredOffsets R (some A) n false).setDesiredOffsets R (some A) n false) t
      = OffsetStorage.getDesiredIndent fuel (s.setDesiredOffsets R (some A) n false) t := by
  rw [setDesiredOffsets_idem s R A n false hwf.1 hwf.2 hr hA]

/-- Witness for C6: the double and single declaration over `[3, 10)` anchored
at `exT` resolve `exT` identically. -/
theorem C6_declaration_idempotent_witness :
    OffsetStorage.getDesiredIndent 3
        ((exS0.setDesiredOffsets (3, 10) (some exT) 2 false).setDesiredOffsets (3, 10)
          (some exT) 2 false) exT
      = OffsetStorage.getDesiredIndent 3 (exS0.setDesiredOffsets (3, 10) (some exT) 2 false)
        exT :=
  C6_declaration_idempotent exS0 (3, 10) exT 2
    ⟨by decide, ⟨⟨0, none, false⟩, by decide⟩⟩ (by decide) (by decide) 3 exT
